import Mathlib

/-!
Verification of the two driver scripts of this repository.

Pipeline A is practicioner_bundle/ch02_data_augmentation/minivggnet_flowers17.py:
load images from label-named directories, scale pixels to [0, 1], split
75/25 with a fixed seed, one-hot encode the labels of each subset with an
independently fitted binarizer, train for 100 epochs with batch size 32,
report, and plot the four per-epoch series over arange(0, 100).

Pipeline B is practicioner_bundle/ch03-feature_extraction/train_model.py:
open an HDF5 feature store read-only, split positionally at
int(0.75 * sample count), grid-search the regularization strength of a
logistic regression over a fixed candidate list, evaluate on the remaining
rows, pickle the best estimator to the model path, and close the store.

The embedding below translates the coordination logic of the two scripts.
Where a step is performed by an external library (scikit-learn, keras,
numpy) whose code is not part of this repository, the corresponding
definition is modelled from the documented behaviour of that collaborator
and says so in its doc comment.
-/

/-- Lexicographic comparison of character sequences by Unicode scalar
value. This is the order in which numpy.unique sorts the label strings
that minivggnet_flowers17.py line 42 extracts from directory names, and in
which Python compares strings. -/
def strDataLt : List Char → List Char → Bool
  | [], [] => false
  | [], _ :: _ => true
  | _ :: _, [] => false
  | c :: cs, d :: ds =>
    if c.toNat < d.toNat then true
    else if d.toNat < c.toNat then false
    else strDataLt cs ds

/-- String-order comparison on the underlying character data. -/
def strLt (a b : String) : Bool := strDataLt a.data b.data

/-- The strict-order proposition underlying strLt. -/
def strLtP (a b : String) : Prop := strLt a b = true

/-- Insertion of a string into a strictly sorted duplicate-free list,
keeping it strictly sorted and duplicate-free. Together with uniqueSorted
it models numpy.unique on string arrays (sorted unique values),
minivggnet_flowers17.py line 42. -/
def insertUnique (x : String) : List String → List String
  | [] => [x]
  | y :: ys =>
    if strLt x y then x :: y :: ys
    else if x = y then y :: ys
    else y :: insertUnique x ys

/-- Sorted list of the distinct strings of a list: numpy.unique,
minivggnet_flowers17.py line 42, and the classes_ attribute computed by
the scikit-learn LabelBinarizer. -/
def uniqueSorted (l : List String) : List String := l.foldr insertUnique []

/-- Immediate parent directory name of an image path, the path given as
its list of separator-separated components: pt.split(os.path.sep)[-2] at
minivggnet_flowers17.py line 41. Python index -2 denotes the element at
position length - 2. -/
def parentLabel (pt : List String) : String := pt.getD (pt.length - 2) ""

/-- Class names of pipeline A: sorted unique parent-directory labels of
all image paths, minivggnet_flowers17.py lines 40 to 42. -/
def classNamesOf (imagePaths : List (List String)) : List String :=
  uniqueSorted (imagePaths.map parentLabel)

/-- Pixel scaling of pipeline A, data.astype(float) / 255.0 at
minivggnet_flowers17.py line 52, over exact rationals: dividing a pixel
intensity (an integer between 0 and 255) by the float 255.0 is exact, so
the embedding divides exactly. -/
def scalePixels (data : List ℚ) : List ℚ := data.map (fun x => x / 255)

/-- Modelled from the spec: train_test_split, invoked at
minivggnet_flowers17.py lines 56 to 59 with test_size = 0.25 and
random_state = 42, is external library code not contained in this
repository. Its documented behaviour is: the evaluation subset receives
ceil(0.25 * N) samples (here written with natural division as
(N + 3) / 4) and the training subset the remaining ones; which sample
lands where is decided by a permutation drawn from the generator seeded
with the fixed seed 42, so trainTestSplit below receives the already
permuted sample list and splits it positionally. -/
def testSize (n : ℕ) : ℕ := (n + 3) / 4

/-- Positional part of the seeded 75/25 split of pipeline A: the first
testSize positions of the seed-permuted list are the evaluation subset,
the rest the training subset. Returns (training, evaluation). -/
def trainTestSplit {α : Type} (shuffled : List α) : List α × List α :=
  (shuffled.drop (testSize shuffled.length), shuffled.take (testSize shuffled.length))

/-- First index of a maximal element, ties resolved to the earliest
occurrence: the tie-breaking of numpy argmax and argmin, used by the
arg-max decoding at minivggnet_flowers17.py lines 82 and 83 and by the
best-candidate selection inside the grid search of train_model.py. -/
def argmaxFirst {α : Type} [LinearOrder α] : List α → ℕ
  | [] => 0
  | x :: xs => if xs.all (fun y => y ≤ x) then 0 else argmaxFirst xs + 1

/-- Modelled from the spec: LabelBinarizer.fit, called at
minivggnet_flowers17.py lines 61 and 62, is external library code not
contained in this repository. fit stores the sorted unique labels of the
fitted subset as classes_. -/
def fitClasses (y : List String) : List String := uniqueSorted y

/-- Modelled from the spec: LabelBinarizer.transform of one label. For
three or more classes it emits the one-hot row indexed by classes_; for
exactly two classes it emits a single column that is 1 exactly on the
second class, and for a single class a single zero column (the documented
binary special cases of the scikit-learn binarizer). -/
def binarizeLabel (classes : List String) (s : String) : List ℕ :=
  if classes.length = 2 then [if s = classes.getD 1 "" then 1 else 0]
  else if classes.length = 1 then [0]
  else classes.map (fun c => if c = s then 1 else 0)

/-- One-hot encoding of a label sequence by a binarizer fitted on that
same sequence: LabelBinarizer().fit_transform(y) at
minivggnet_flowers17.py lines 61 and 62, applied independently to the
training and to the evaluation labels. -/
def oneHotEncode (y : List String) : List (List ℕ) := y.map (binarizeLabel (fitClasses y))

/-- Arg-max decoding of an encoded row as performed at
minivggnet_flowers17.py lines 82 to 84: the arg-max index selects the
class name of that position (via target_names = class_names). -/
def decodeLabel (classes : List String) (row : List ℕ) : String :=
  classes.getD (argmaxFirst row) ""

/-- Fixed epoch count of pipeline A: epochs = 100 at
minivggnet_flowers17.py line 76. -/
def numEpochs : ℕ := 100

/-- Fixed batch size of pipeline A: batch_size = 32 at
minivggnet_flowers17.py line 75. -/
def batchSize : ℕ := 32

/-- Modelled from the spec: model.fit is external library code; its
History object records one value per tracked metric per epoch, so each of
the four series (training loss, validation loss, training accuracy,
validation accuracy) has one entry for each of the numEpochs epochs. The
per-epoch values themselves are opaque and given by the four metric
functions. -/
def fitHistory (lossF valLossF accF valAccF : ℕ → ℚ) :
    List ℚ × List ℚ × List ℚ × List ℚ :=
  ((List.range numEpochs).map lossF, (List.range numEpochs).map valLossF,
   (List.range numEpochs).map accF, (List.range numEpochs).map valAccF)

/-- numpy.arange(a, b) on naturals: the integers from a up to b - 1. -/
def arange (a b : ℕ) : List ℕ := (List.range (b - a)).map (fun i => a + i)

/-- The x axis np.arange(0, 100) against which the four history series are
plotted, minivggnet_flowers17.py lines 88 to 91. -/
def plotEpochAxis : List ℕ := arange 0 100

/-- Split index of pipeline B: i = int(db["labels"].shape[0] * 0.75) at
train_model.py line 50. For a natural row count n the product n * 0.75 is
the exact rational 3 n / 4 (0.75 is a dyadic rational and exactly
representable, and the double product is exact for every realistic n) and
int(...) truncates it, so the index is the floor of 3 n / 4, written here
with natural division; splitIndex_eq_floor below restates it as a floor. -/
def splitIndex (n : ℕ) : ℕ := 3 * n / 4

/-- Training slice of pipeline B: db["features"][:i] and db["labels"][:i]
at train_model.py line 57, with i computed from the labels collection. -/
def pipelineBTrain {α β : Type} (features : List α) (labels : List β) :
    List α × List β :=
  (features.take (splitIndex labels.length), labels.take (splitIndex labels.length))

/-- Evaluation slice of pipeline B: db["features"][i:] and db["labels"][i:]
at train_model.py lines 61 and 62. -/
def pipelineBEval {α β : Type} (features : List α) (labels : List β) :
    List α × List β :=
  (features.drop (splitIndex labels.length), labels.drop (splitIndex labels.length))

/-- Hyperparameter grid of train_model.py line 54:
params = {"C": [0.1, 1.0, 10.0, 100.0, 1000.0, 10000.0]}. -/
def cCandidates : List ℚ := [1/10, 1, 10, 100, 1000, 10000]

/-- Number of cross-validation folds of the grid search: cv = 3 at
train_model.py line 56. -/
def cvFolds : ℕ := 3

/-- Modelled from the spec: GridSearchCV (train_model.py lines 55 to 57)
is external library code. It evaluates the cross-validated score of every
candidate of the grid, and its best_index_ is the numpy argmin of the rank
array, which returns the first index attaining the best score; the best
estimator is the refit at that candidate. The cross-validated score of a
candidate is opaque and given by the function score. -/
def gridSearchBestC (score : ℚ → ℚ) : ℚ :=
  cCandidates.getD (argmaxFirst (cCandidates.map score)) 0

/-- Events of one run of the pipeline B driver, in program order. -/
inductive Ev where
  | openStore
  | fitSearch
  | predictStage
  | reportStage
  | saveModel
  | closeStore
deriving DecidableEq

/-- File mode with which the feature store is opened:
h5py.File(args["db"], "r") at train_model.py line 49. -/
def dbOpenMode : String := "r"

/-- Straight-line control flow of the main function of train_model.py
(lines 49 to 69), one Boolean per fallible stage: a false value means that
stage raises, and, as in the script (which installs no handler and no
finally block), every later statement including db.close() is skipped
while the exception propagates out of main. Returns the trace of completed
actions and the final outcome. -/
def runPipelineB (fitOk predictOk reportOk writeOk : Bool) :
    List Ev × Except String Unit :=
  if !fitOk then ([Ev.openStore], Except.error "fit raised")
  else if !predictOk then ([Ev.openStore, Ev.fitSearch], Except.error "predict raised")
  else if !reportOk then
    ([Ev.openStore, Ev.fitSearch, Ev.predictStage], Except.error "report raised")
  else if !writeOk then
    ([Ev.openStore, Ev.fitSearch, Ev.predictStage, Ev.reportStage],
     Except.error "write raised")
  else
    ([Ev.openStore, Ev.fitSearch, Ev.predictStage, Ev.reportStage, Ev.saveModel,
      Ev.closeStore],
     Except.ok ())

/-- Objects the script could have pickled: the refit best estimator alone,
or the whole fitted search object. Line 66 of train_model.py pickles
model.best_estimator_, which is the first form. -/
inductive SavedObj where
  | bestEstimatorOnly (c : ℚ)
  | wholeSearch (grid : List ℚ) (c : ℚ)
deriving DecidableEq

/-- Outcome of the fitted grid search: the candidate grid it searched and
the best regularization strength, the latter carried by the refit best
estimator. -/
structure SearchOutcome where
  grid : List ℚ
  bestC : ℚ

/-- pickle.dumps(model.best_estimator_) at train_model.py line 66: only
the refit best estimator is serialized, not the whole search object. -/
def serializedPayload (m : SearchOutcome) : SavedObj :=
  SavedObj.bestEstimatorOnly m.bestC

/-- A flat file system as an association list from paths to stored
objects. open(path, "wb"), write, close (train_model.py lines 65 to 67)
truncates any existing file at the path and replaces its content. -/
def writeFileBin (fs : List (String × SavedObj)) (p : String) (o : SavedObj) :
    List (String × SavedObj) :=
  (p, o) :: fs.filter (fun e => !(e.1 == p))

/-- Read back the object stored at a path, if any. -/
def readFileBin (fs : List (String × SavedObj)) (p : String) : Option SavedObj :=
  (fs.find? (fun e => e.1 == p)).map (fun e => e.2)

/-- Two characters with the same scalar value are equal. -/
theorem char_eq_of_toNat_eq {c d : Char} (h : c.toNat = d.toNat) : c = d :=
  Char.eq_of_val_eq (UInt32.eq_of_toBitVec_eq (BitVec.eq_of_toNat_eq h))

/-- Two strings with the same character data are equal. -/
theorem string_eq_of_data_eq {a b : String} (h : a.data = b.data) : a = b := by
  cases a
  cases b
  exact congrArg String.mk h

/-- The character-data order is irreflexive. -/
theorem strDataLt_irrefl (l : List Char) : strDataLt l l = false := by
  induction l with
  | nil => rfl
  | cons c cs ih => simp [strDataLt, ih]

/-- The character-data order is transitive. -/
theorem strDataLt_trans {a b c : List Char} (hab : strDataLt a b = true)
    (hbc : strDataLt b c = true) : strDataLt a c = true := by
  induction a generalizing b c with
  | nil =>
    cases b with
    | nil => simp [strDataLt] at hab
    | cons y ys =>
      cases c with
      | nil => simp [strDataLt] at hbc
      | cons z zs => rfl
  | cons x xs ih =>
    cases b with
    | nil => simp [strDataLt] at hab
    | cons y ys =>
      cases c with
      | nil => simp [strDataLt] at hbc
      | cons z zs =>
        simp only [strDataLt] at hab hbc ⊢
        by_cases h1 : x.toNat < y.toNat
        · by_cases h2 : y.toNat < z.toNat
          · have hxz : x.toNat < z.toNat := by omega
            simp [hxz]
          · by_cases h3 : z.toNat < y.toNat
            · simp [h2, h3] at hbc
            · have hyz : y = z := char_eq_of_toNat_eq (by omega)
              subst hyz
              simp [h1]
        · by_cases h4 : y.toNat < x.toNat
          · simp [h1, h4] at hab
          · have hxy : x = y := char_eq_of_toNat_eq (by omega)
            subst hxy
            simp only [lt_irrefl, if_false, if_neg] at hab
            by_cases h2 : x.toNat < z.toNat
            · simp [h2]
            · by_cases h3 : z.toNat < x.toNat
              · simp [h2, h3] at hbc
              · have hxz : x = z := char_eq_of_toNat_eq (by omega)
                subst hxz
                simp only [lt_irrefl, if_false, if_neg] at hbc ⊢
                exact ih hab hbc

/-- The character-data order is total up to equality. -/
theorem strDataLt_total (a b : List Char) :
    strDataLt a b = true ∨ a = b ∨ strDataLt b a = true := by
  induction a generalizing b with
  | nil =>
    cases b with
    | nil => exact Or.inr (Or.inl rfl)
    | cons y ys => exact Or.inl rfl
  | cons x xs ih =>
    cases b with
    | nil => exact Or.inr (Or.inr rfl)
    | cons y ys =>
      by_cases h1 : x.toNat < y.toNat
      · exact Or.inl (by simp [strDataLt, h1])
      · by_cases h2 : y.toNat < x.toNat
        · exact Or.inr (Or.inr (by simp [strDataLt, h1, h2]))
        · have hxy : x = y := char_eq_of_toNat_eq (by omega)
          subst hxy
          rcases ih ys with h | h | h
          · exact Or.inl (by simp [strDataLt, h])
          · exact Or.inr (Or.inl (by rw [h]))
          · exact Or.inr (Or.inr (by simp [strDataLt, h]))

/-- The string order is irreflexive. -/
theorem strLt_irrefl (a : String) : strLt a a = false := strDataLt_irrefl a.data

/-- The string order is transitive. -/
theorem strLt_trans {a b c : String} (h1 : strLt a b = true) (h2 : strLt b c = true) :
    strLt a c = true := strDataLt_trans h1 h2

/-- The string order is total up to equality. -/
theorem strLt_total (a b : String) : strLt a b = true ∨ a = b ∨ strLt b a = true := by
  rcases strDataLt_total a.data b.data with h | h | h
  · exact Or.inl h
  · exact Or.inr (Or.inl (string_eq_of_data_eq h))
  · exact Or.inr (Or.inr h)

instance : IsIrrefl String strLtP :=
  ⟨fun a h => by simp [strLtP, strLt_irrefl] at h⟩

/-- Membership in an insertion. -/
theorem mem_insertUnique {x a : String} {l : List String} :
    a ∈ insertUnique x l ↔ a = x ∨ a ∈ l := by
  induction l with
  | nil => simp [insertUnique]
  | cons y ys ih =>
    by_cases h2 : x = y
    · subst h2
      rw [show insertUnique x (x :: ys) = x :: ys from by
        simp [insertUnique, strLt_irrefl]]
      simp only [List.mem_cons]
      tauto
    · cases hxy : strLt x y with
      | true =>
        rw [show insertUnique x (y :: ys) = x :: y :: ys from by
          simp [insertUnique, hxy]]
        simp only [List.mem_cons]
      | false =>
        rw [show insertUnique x (y :: ys) = y :: insertUnique x ys from by
          simp [insertUnique, hxy, h2]]
        simp only [List.mem_cons, ih]
        tauto

/-- Insertion preserves strict sortedness. -/
theorem sorted_insertUnique {x : String} {l : List String}
    (hl : List.Sorted strLtP l) : List.Sorted strLtP (insertUnique x l) := by
  induction l with
  | nil => simp [insertUnique, strLtP]
  | cons y ys ih =>
    rw [List.sorted_cons] at hl
    obtain ⟨hy, hys⟩ := hl
    by_cases h2 : x = y
    · subst h2
      rw [show insertUnique x (x :: ys) = x :: ys from by
        simp [insertUnique, strLt_irrefl]]
      rw [List.sorted_cons]
      exact ⟨hy, hys⟩
    · cases hxy : strLt x y with
      | true =>
        rw [show insertUnique x (y :: ys) = x :: y :: ys from by
          simp [insertUnique, hxy]]
        rw [List.sorted_cons]
        refine ⟨?_, ?_⟩
        · intro b hb
          rcases List.mem_cons.mp hb with rfl | hb
          · exact hxy
          · exact strLt_trans hxy (hy b hb)
        · rw [List.sorted_cons]
          exact ⟨hy, hys⟩
      | false =>
        rw [show insertUnique x (y :: ys) = y :: insertUnique x ys from by
          simp [insertUnique, hxy, h2]]
        rw [List.sorted_cons]
        refine ⟨?_, ih hys⟩
        intro b hb
        rcases mem_insertUnique.mp hb with rfl | hb
        · rcases strLt_total b y with h | h | h
          · exact absurd h (by simp [hxy])
          · exact absurd h h2
          · exact h
        · exact hy b hb

/-- uniqueSorted is strictly sorted in string order. -/
theorem sorted_uniqueSorted (l : List String) : List.Sorted strLtP (uniqueSorted l) := by
  induction l with
  | nil => simp [uniqueSorted]
  | cons x xs ih => exact sorted_insertUnique ih

/-- uniqueSorted has the same members as its input. -/
theorem mem_uniqueSorted {a : String} {l : List String} :
    a ∈ uniqueSorted l ↔ a ∈ l := by
  induction l with
  | nil => simp [uniqueSorted]
  | cons x xs ih =>
    show a ∈ insertUnique x (uniqueSorted xs) ↔ _
    rw [mem_insertUnique, ih]
    exact List.mem_cons.symm

/-- uniqueSorted is duplicate-free. -/
theorem nodup_uniqueSorted (l : List String) : (uniqueSorted l).Nodup :=
  List.Pairwise.nodup (sorted_uniqueSorted l)

/-- The arg-max index of a nonempty list is in range. -/
theorem argmaxFirst_lt_length {α : Type} [LinearOrder α] {l : List α} (h : l ≠ []) :
    argmaxFirst l < l.length := by
  induction l with
  | nil => exact absurd rfl h
  | cons x xs ih =>
    by_cases hall : (xs.all (fun y => y ≤ x)) = true
    · simp [argmaxFirst, hall]
    · cases xs with
      | nil => simp at hall
      | cons z zs =>
        have hz := ih (by simp)
        rw [show argmaxFirst (x :: z :: zs) = argmaxFirst (z :: zs) + 1 from by
          rw [argmaxFirst, if_neg hall]]
        simp only [List.length_cons] at hz ⊢
        omega

/-- Every member of a list is bounded by the entry at the arg-max index. -/
theorem le_getD_argmaxFirst {α : Type} [LinearOrder α] {l : List α} (d : α) :
    ∀ y ∈ l, y ≤ l.getD (argmaxFirst l) d := by
  induction l with
  | nil => intro y hy; simp at hy
  | cons x xs ih =>
    intro y hy
    by_cases hall : (xs.all (fun z => z ≤ x)) = true
    · have hx : ∀ z ∈ xs, z ≤ x := by
        intro z hz
        simpa using List.all_eq_true.mp hall z hz
      rcases List.mem_cons.mp hy with rfl | hy
      · simp [argmaxFirst, hall]
      · simpa [argmaxFirst, hall] using hx y hy
    · obtain ⟨z, hz, hzx⟩ : ∃ z ∈ xs, x < z := by
        simp only [List.all_eq_true, decide_eq_true_eq, not_forall] at hall
        obtain ⟨z, hz, hzx⟩ := hall
        exact ⟨z, hz, lt_of_not_le hzx⟩
      simp only [argmaxFirst, hall, if_false, List.getD_cons_succ]
      rcases List.mem_cons.mp hy with rfl | hy
      · exact le_of_lt (lt_of_lt_of_le hzx (ih z hz))
      · exact ih y hy

/-- Entries strictly before the arg-max index are strictly smaller than the
entry there: the arg-max index is the first maximal position. -/
theorem getD_lt_argmaxFirst {α : Type} [LinearOrder α] {l : List α} (d : α) :
    ∀ j, j < argmaxFirst l → l.getD j d < l.getD (argmaxFirst l) d := by
  induction l with
  | nil => intro j hj; simp [argmaxFirst] at hj
  | cons x xs ih =>
    intro j hj
    by_cases hall : (xs.all (fun z => z ≤ x)) = true
    · simp [argmaxFirst, hall] at hj
    · obtain ⟨z, hz, hzx⟩ : ∃ z ∈ xs, x < z := by
        simp only [List.all_eq_true, decide_eq_true_eq, not_forall] at hall
        obtain ⟨z, hz, hzx⟩ := hall
        exact ⟨z, hz, lt_of_not_le hzx⟩
      rw [show argmaxFirst (x :: xs) = argmaxFirst xs + 1 from by
        rw [argmaxFirst, if_neg hall]] at hj ⊢
      cases j with
      | zero =>
        simp only [List.getD_cons_zero, List.getD_cons_succ]
        exact lt_of_lt_of_le hzx (le_getD_argmaxFirst d z hz)
      | succ i =>
        simp only [List.getD_cons_succ]
        exact ih i (by omega)

/-- An in-range getD is a member. -/
theorem getD_mem {α : Type} {l : List α} {i : ℕ} (h : i < l.length) (d : α) :
    l.getD i d ∈ l := by
  rw [List.getD_eq_getElem?_getD, List.getElem?_eq_getElem h]
  exact List.getElem_mem h

/-- The split index of pipeline B is at most the sample count. -/
theorem splitIndex_le (n : ℕ) : splitIndex n ≤ n := by
  unfold splitIndex
  omega

/-- The natural-division form of the pipeline B split index agrees with
the floor form floor(0.75 * n) of the source expression. -/
theorem splitIndex_eq_floor (n : ℕ) :
    (splitIndex n : ℤ) = ⌊(n : ℚ) * (3 / 4)⌋ := by
  have h : (n : ℚ) * (3 / 4) = ((3 * n : ℕ) : ℚ) / ((4 : ℕ) : ℚ) := by
    push_cast
    ring
  rw [splitIndex, h, Rat.floor_natCast_div_natCast]
  norm_cast

/-- The evaluation size of pipeline A is at most the sample count. -/
theorem testSize_le (n : ℕ) : testSize n ≤ n := by
  unfold testSize
  omega

/-- The natural-division form of the pipeline A evaluation size agrees
with the ceiling form ceil(0.25 * n) of the split rule. -/
theorem testSize_eq_ceil (n : ℕ) :
    (testSize n : ℤ) = ⌈(n : ℚ) * (1 / 4)⌉ := by
  unfold testSize
  obtain ⟨k, hk⟩ : ∃ k, (n + 3) / 4 = k := ⟨_, rfl⟩
  have h1 : n ≤ 4 * k := by omega
  have h2 : 4 * k < n + 4 := by omega
  rw [hk]
  symm
  rw [Int.ceil_eq_iff, mul_one_div]
  have hc1 : (4 : ℚ) * (k : ℚ) < (n : ℚ) + 4 := by exact_mod_cast h2
  have hc2 : (n : ℚ) ≤ 4 * (k : ℚ) := by exact_mod_cast h1
  constructor
  · rw [lt_div_iff₀ (by norm_num : (0 : ℚ) < 4)]
    push_cast
    linarith
  · rw [div_le_iff₀ (by norm_num : (0 : ℚ) < 4)]
    push_cast
    linarith

/-- Width of one encoded row: 1 in the binary and single-class special
cases, the class count otherwise. -/
theorem binarizeLabel_length (classes : List String) (s : String) :
    (binarizeLabel classes s).length =
      if classes.length = 2 then 1
      else if classes.length = 1 then 1
      else classes.length := by
  unfold binarizeLabel
  by_cases h2 : classes.length = 2
  · simp [h2]
  · by_cases h1 : classes.length = 1
    · simp [h2, h1]
    · simp [h2, h1]

/-- Arg-max decoding of a one-hot indicator row over a duplicate-free
class list recovers the encoded class. -/
theorem argmaxFirst_oneHot {classes : List String} {s : String}
    (hnd : classes.Nodup) (hs : s ∈ classes) :
    classes.getD (argmaxFirst (classes.map (fun c => if c = s then (1 : ℕ) else 0))) "" = s := by
  induction classes with
  | nil => simp at hs
  | cons c cs ih =>
    rw [List.nodup_cons] at hnd
    obtain ⟨hcn, hnd⟩ := hnd
    by_cases hcs : c = s
    · subst hcs
      have hall : ((cs.map (fun c2 => if c2 = c then (1 : ℕ) else 0)).all
          (fun y => y ≤ 1)) = true := by
        rw [List.all_eq_true]
        intro v hv
        obtain ⟨c2, _, rfl⟩ := List.mem_map.mp hv
        by_cases h : c2 = c <;> simp [h]
      have hidx : argmaxFirst ((if c = c then (1 : ℕ) else 0) ::
          cs.map (fun c2 => if c2 = c then (1 : ℕ) else 0)) = 0 := by
        rw [if_pos rfl, argmaxFirst, if_pos hall]
      rw [List.map_cons, hidx, List.getD_cons_zero]
    · have hs2 : s ∈ cs := by
        rcases List.mem_cons.mp hs with h | h
        · exact absurd h.symm hcs
        · exact h
      have hmem : (1 : ℕ) ∈ cs.map (fun c2 => if c2 = s then (1 : ℕ) else 0) :=
        List.mem_map.mpr ⟨s, hs2, by simp⟩
      have hall : ¬ ((cs.map (fun c2 => if c2 = s then (1 : ℕ) else 0)).all
          (fun y => y ≤ if c = s then 1 else 0)) = true := by
        intro h
        have := List.all_eq_true.mp h 1 hmem
        simp [hcs] at this
      simp only [List.map_cons, argmaxFirst, hall, if_false, List.getD_cons_succ]
      exact ih hnd hs2

/-- C9: in pipeline A every entry of the scaled data array passed to the
splitter and trainer lies in the closed interval [0, 1] provided every raw
pixel intensity lies in [0, 255] (the loader output is divided elementwise
by 255.0). -/
theorem pipelineA_scaling_bounds (data : List ℚ)
    (h : ∀ x ∈ data, 0 ≤ x ∧ x ≤ 255) :
    ∀ y ∈ scalePixels data, 0 ≤ y ∧ y ≤ 1 := by
  intro y hy
  obtain ⟨x, hx, rfl⟩ := List.mem_map.mp hy
  obtain ⟨h0, h255⟩ := h x hx
  constructor
  · exact div_nonneg h0 (by norm_num)
  · rw [div_le_one (by norm_num : (0 : ℚ) < 255)]
    exact h255

/-- Witness for pipelineA_scaling_bounds at a concrete pixel list. -/
theorem pipelineA_scaling_bounds_w :
    (∀ x ∈ ([0, 128, 255] : List ℚ), 0 ≤ x ∧ x ≤ 255) ∧
    (∀ y ∈ scalePixels [0, 128, 255], 0 ≤ y ∧ y ≤ 1) :=
  ⟨by decide, pipelineA_scaling_bounds [0, 128, 255] (by decide)⟩

/-- C10: pipeline A trains for exactly 100 epochs with batch size 32, each
of the four history series (training loss, validation loss, training
accuracy, validation accuracy) has length 100, and this matches the length
of the plotted x axis arange(0, 100). -/
theorem pipelineA_history_lengths (lossF valLossF accF valAccF : ℕ → ℚ) :
    numEpochs = 100 ∧ batchSize = 32 ∧
    (fitHistory lossF valLossF accF valAccF).1.length = 100 ∧
    (fitHistory lossF valLossF accF valAccF).2.1.length = 100 ∧
    (fitHistory lossF valLossF accF valAccF).2.2.1.length = 100 ∧
    (fitHistory lossF valLossF accF valAccF).2.2.2.length = 100 ∧
    plotEpochAxis.length = numEpochs := by
  refine ⟨rfl, rfl, ?_, ?_, ?_, ?_, ?_⟩ <;>
    simp [fitHistory, plotEpochAxis, arange, numEpochs]

/-- C4 counterexample: a run of pipeline B in which the grid-search fit
raises is an exit path (the run terminates with the propagated error), yet
its trace contains no close of the feature store, so the claim that the
store is closed on every exit path fails on the code. -/
theorem pipelineB_close_cex :
    Ev.closeStore ∉ (runPipelineB false true true true).1 ∧
    (runPipelineB false true true true).2 = Except.error "fit raised" :=
  ⟨by decide, rfl⟩

/-- C4 (amended): the feature store is opened read-only, and db.close()
runs exactly on the fully successful path: the trace contains the close if
and only if the run succeeded; on every failing exit path (grid-search
fit, prediction, report, or model serialization raising) the close is
skipped. -/
theorem pipelineB_close_iff_success (f p r w : Bool) :
    dbOpenMode = "r" ∧
    (Ev.closeStore ∈ (runPipelineB f p r w).1 ↔
      (runPipelineB f p r w).2 = Except.ok ()) := by
  refine ⟨rfl, ?_⟩
  cases f <;> cases p <;> cases r <;> cases w <;> simp [runPipelineB]

/-- Witness for pipelineB_close_iff_success at the all-success run. -/
theorem pipelineB_close_iff_success_w :
    dbOpenMode = "r" ∧
    (Ev.closeStore ∈ (runPipelineB true true true true).1 ↔
      (runPipelineB true true true true).2 = Except.ok ()) :=
  pipelineB_close_iff_success true true true true

/-- C8: pipeline B writes exactly the pickled refit best estimator (not
the whole search object) to the caller-specified model path, overwriting
whatever the file system previously held at that path, and a failing write
stage propagates its error as the outcome of the run instead of being
swallowed. -/
theorem pipelineB_serializes_best (fs : List (String × SavedObj)) (p : String)
    (m : SearchOutcome) :
    readFileBin (writeFileBin fs p (serializedPayload m)) p =
      some (SavedObj.bestEstimatorOnly m.bestC) ∧
    (runPipelineB true true true false).2 = Except.error "write raised" := by
  constructor
  · unfold readFileBin writeFileBin serializedPayload
    rw [List.find?_cons_of_pos _ (by simp)]
    rfl
  · rfl

/-- C3: the grid search of pipeline B evaluates exactly the fixed
candidate set of regularization strengths, returns a member of it whose
cross-validated score is maximal, and breaks ties by the stable default
order: every candidate strictly before the selected index scores strictly
less, so equal scores resolve to the first best candidate in list order. -/
theorem gridSearch_selects_best (score : ℚ → ℚ) :
    cCandidates = [1/10, 1, 10, 100, 1000, 10000] ∧
    gridSearchBestC score ∈ cCandidates ∧
    (∀ c ∈ cCandidates, score c ≤ score (gridSearchBestC score)) ∧
    (∀ j, j < argmaxFirst (cCandidates.map score) →
      score (cCandidates.getD j 0) < score (gridSearchBestC score)) := by
  have hne : cCandidates.map score ≠ [] := by simp [cCandidates]
  have hlt : argmaxFirst (cCandidates.map score) < cCandidates.length := by
    have h := argmaxFirst_lt_length hne
    simpa using h
  refine ⟨rfl, getD_mem hlt 0, ?_, ?_⟩
  · intro c hc
    have hmem : score c ∈ cCandidates.map score := List.mem_map.mpr ⟨c, hc, rfl⟩
    have h := le_getD_argmaxFirst (score 0) (score c) hmem
    rw [List.getD_map] at h
    exact h
  · intro j hj
    have h := getD_lt_argmaxFirst (score 0) j hj
    rw [List.getD_map, List.getD_map] at h
    exact h

/-- Witness for gridSearch_selects_best at the identity score. -/
theorem gridSearch_selects_best_w :
    cCandidates = [1/10, 1, 10, 100, 1000, 10000] ∧
    gridSearchBestC (fun c => c) ∈ cCandidates ∧
    (∀ c ∈ cCandidates, c ≤ gridSearchBestC (fun c => c)) ∧
    (∀ j, j < argmaxFirst (cCandidates.map (fun c => c)) →
      cCandidates.getD j 0 < gridSearchBestC (fun c => c)) :=
  gridSearch_selects_best (fun c => c)

/-- C5 counterexample: with the two-element label set {a, b} on both the
training and the evaluation subset (identical label sets), the binarizer
emits a single 0/1 column, the arg-max of a one-entry row is always index
0, and decoding sends the label b to a, so encode-then-decode is not the
identity on a label present in both subsets. -/
theorem oneHot_roundtrip_cex :
    fitClasses ["a", "b"] = fitClasses ["b", "a"] ∧
    decodeLabel (fitClasses ["a", "b"])
      (binarizeLabel (fitClasses ["b", "a"]) "b") ≠ "b" :=
  ⟨by decide, by decide⟩

/-- C5 (amended): whenever the training and evaluation subsets contain
identical label sets and the common class count is not exactly 2, one-hot
encoding an evaluation label and decoding by the arg-max index recovers
the label. With exactly two classes the single-column binary special case
of the binarizer makes arg-max decoding collapse to the first class. -/
theorem oneHot_roundtrip (ytr yev : List String) (s : String)
    (hcls : fitClasses ytr = fitClasses yev) (hs : s ∈ yev)
    (hk : (fitClasses yev).length ≠ 2) :
    decodeLabel (fitClasses ytr) (binarizeLabel (fitClasses yev) s) = s := by
  rw [hcls]
  have hsc : s ∈ fitClasses yev := mem_uniqueSorted.mpr hs
  have hnd : (fitClasses yev).Nodup := nodup_uniqueSorted yev
  unfold decodeLabel binarizeLabel
  rw [if_neg hk]
  by_cases h1 : (fitClasses yev).length = 1
  · rw [if_pos h1]
    obtain ⟨c, hc⟩ := List.length_eq_one.mp h1
    rw [hc] at hsc ⊢
    have hs2 : s = c := by simpa using hsc
    subst hs2
    simp [argmaxFirst]
  · rw [if_neg h1]
    exact argmaxFirst_oneHot hnd hsc

/-- Witness for oneHot_roundtrip on a three-class label set. -/
theorem oneHot_roundtrip_w :
    decodeLabel (fitClasses ["a", "b", "c"])
      (binarizeLabel (fitClasses ["a", "b", "c"]) "b") = "b" :=
  oneHot_roundtrip ["a", "b", "c"] ["a", "b", "c"] "b" rfl (by decide) (by decide)

/-- C6: pipeline A derives every sample label as the immediate parent
directory component of its image path, and the produced list of unique
class names is duplicate-free, sorted in string order, and contains
exactly the labels derived from the image paths. -/
theorem pipelineA_class_names (imagePaths : List (List String)) :
    (classNamesOf imagePaths).Nodup ∧
    List.Sorted strLtP (classNamesOf imagePaths) ∧
    (∀ s, s ∈ classNamesOf imagePaths ↔ ∃ pt ∈ imagePaths, parentLabel pt = s) := by
  refine ⟨nodup_uniqueSorted _, sorted_uniqueSorted _, ?_⟩
  intro s
  unfold classNamesOf
  rw [mem_uniqueSorted]
  exact List.mem_map

/-- Witness for pipelineA_class_names on two concrete image paths. -/
theorem pipelineA_class_names_w :
    (classNamesOf [["flowers17", "daisy", "image1.jpg"],
      ["flowers17", "rose", "image2.jpg"]]).Nodup ∧
    List.Sorted strLtP (classNamesOf [["flowers17", "daisy", "image1.jpg"],
      ["flowers17", "rose", "image2.jpg"]]) ∧
    (∀ s, s ∈ classNamesOf [["flowers17", "daisy", "image1.jpg"],
        ["flowers17", "rose", "image2.jpg"]] ↔
      ∃ pt ∈ [["flowers17", "daisy", "image1.jpg"],
        ["flowers17", "rose", "image2.jpg"]], parentLabel pt = s) :=
  pipelineA_class_names [["flowers17", "daisy", "image1.jpg"],
    ["flowers17", "rose", "image2.jpg"]]

/-- C7: the training and evaluation label sequences are one-hot encoded by
independently fitted binarizers; when the two discovered class lists
coincide every encoded training row and every encoded evaluation row have
the same width, while differing label sets can produce different widths
(exhibited concretely), and the encoding is applied unconditionally with
no guard against the mismatch. -/
theorem pipelineA_encoder_dims (ytr yev : List String) :
    (fitClasses ytr = fitClasses yev →
      ∀ r ∈ oneHotEncode ytr, ∀ q ∈ oneHotEncode yev, r.length = q.length) ∧
    (∃ r ∈ oneHotEncode ["a", "b", "c"], ∃ q ∈ oneHotEncode ["a", "b", "a"],
      r.length ≠ q.length) := by
  constructor
  · intro hcls r hr q hq
    obtain ⟨a, _, rfl⟩ := List.mem_map.mp hr
    obtain ⟨b, _, rfl⟩ := List.mem_map.mp hq
    rw [binarizeLabel_length, binarizeLabel_length, hcls]
  · decide

/-- Witness for pipelineA_encoder_dims on equal singleton label sets. -/
theorem pipelineA_encoder_dims_w :
    ((fitClasses ["x"] = fitClasses ["x"] →
      ∀ r ∈ oneHotEncode ["x"], ∀ q ∈ oneHotEncode ["x"], r.length = q.length) ∧
    (∃ r ∈ oneHotEncode ["a", "b", "c"], ∃ q ∈ oneHotEncode ["a", "b", "a"],
      r.length ≠ q.length)) :=
  pipelineA_encoder_dims ["x"] ["x"]

/-- C1: for a feature store whose labels collection has length N and whose
features collection has matching length, pipeline B computes the split
index floor(0.75 N); the training slice consists of exactly the rows of
indices [0, idx) of both collections, the evaluation slice of exactly the
rows of indices [idx, N); and the two index ranges are disjoint and
together cover all N rows. -/
theorem pipelineB_split_partition (features : List (List ℚ)) (labels : List ℕ)
    (hlen : features.length = labels.length) :
    ((splitIndex labels.length : ℤ) = ⌊(labels.length : ℚ) * (3 / 4)⌋) ∧
    (pipelineBTrain features labels).1.length = splitIndex labels.length ∧
    (pipelineBTrain features labels).2.length = splitIndex labels.length ∧
    (∀ j, j < splitIndex labels.length →
      (pipelineBTrain features labels).1[j]? = features[j]? ∧
      (pipelineBTrain features labels).2[j]? = labels[j]?) ∧
    (∀ j, (pipelineBEval features labels).1[j]? =
        features[splitIndex labels.length + j]? ∧
      (pipelineBEval features labels).2[j]? = labels[splitIndex labels.length + j]?) ∧
    (pipelineBTrain features labels).1 ++ (pipelineBEval features labels).1 = features ∧
    (pipelineBTrain features labels).2 ++ (pipelineBEval features labels).2 = labels ∧
    Disjoint (Finset.range (splitIndex labels.length))
      (Finset.Ico (splitIndex labels.length) labels.length) ∧
    Finset.range (splitIndex labels.length) ∪
      Finset.Ico (splitIndex labels.length) labels.length =
      Finset.range labels.length := by
  have hle : splitIndex labels.length ≤ labels.length := splitIndex_le _
  have hlef : splitIndex labels.length ≤ features.length := by omega
  refine ⟨splitIndex_eq_floor _, ?_, ?_, ?_, ?_, ?_, ?_, ?_, ?_⟩
  · simp only [pipelineBTrain, List.length_take]
    exact Nat.min_eq_left hlef
  · simp only [pipelineBTrain, List.length_take]
    exact Nat.min_eq_left hle
  · intro j hj
    constructor
    · simp [pipelineBTrain, List.getElem?_take, hj]
    · simp [pipelineBTrain, List.getElem?_take, hj]
  · intro j
    constructor
    · simp [pipelineBEval, List.getElem?_drop]
    · simp [pipelineBEval, List.getElem?_drop]
  · simp only [pipelineBTrain, pipelineBEval]
    exact List.take_append_drop _ _
  · simp only [pipelineBTrain, pipelineBEval]
    exact List.take_append_drop _ _
  · rw [Finset.disjoint_left]
    intro a ha hb
    rw [Finset.mem_range] at ha
    rw [Finset.mem_Ico] at hb
    omega
  · ext a
    simp only [Finset.mem_union, Finset.mem_range, Finset.mem_Ico]
    omega

/-- Witness for pipelineB_split_partition on a four-row feature store. -/
theorem pipelineB_split_partition_w :
    ((splitIndex ([5, 6, 7, 8] : List ℕ).length : ℤ) =
      ⌊(([5, 6, 7, 8] : List ℕ).length : ℚ) * (3 / 4)⌋) ∧
    (pipelineBTrain ([[1], [2], [3], [4]] : List (List ℚ)) [5, 6, 7, 8]).1.length =
      splitIndex ([5, 6, 7, 8] : List ℕ).length ∧
    (pipelineBTrain ([[1], [2], [3], [4]] : List (List ℚ)) [5, 6, 7, 8]).2.length =
      splitIndex ([5, 6, 7, 8] : List ℕ).length ∧
    (∀ j, j < splitIndex ([5, 6, 7, 8] : List ℕ).length →
      (pipelineBTrain ([[1], [2], [3], [4]] : List (List ℚ)) [5, 6, 7, 8]).1[j]? =
        ([[1], [2], [3], [4]] : List (List ℚ))[j]? ∧
      (pipelineBTrain ([[1], [2], [3], [4]] : List (List ℚ)) [5, 6, 7, 8]).2[j]? =
        ([5, 6, 7, 8] : List ℕ)[j]?) ∧
    (∀ j, (pipelineBEval ([[1], [2], [3], [4]] : List (List ℚ)) [5, 6, 7, 8]).1[j]? =
        ([[1], [2], [3], [4]] : List (List ℚ))[splitIndex ([5, 6, 7, 8] : List ℕ).length + j]? ∧
      (pipelineBEval ([[1], [2], [3], [4]] : List (List ℚ)) [5, 6, 7, 8]).2[j]? =
        ([5, 6, 7, 8] : List ℕ)[splitIndex ([5, 6, 7, 8] : List ℕ).length + j]?) ∧
    (pipelineBTrain ([[1], [2], [3], [4]] : List (List ℚ)) [5, 6, 7, 8]).1 ++
      (pipelineBEval ([[1], [2], [3], [4]] : List (List ℚ)) [5, 6, 7, 8]).1 =
      ([[1], [2], [3], [4]] : List (List ℚ)) ∧
    (pipelineBTrain ([[1], [2], [3], [4]] : List (List ℚ)) [5, 6, 7, 8]).2 ++
      (pipelineBEval ([[1], [2], [3], [4]] : List (List ℚ)) [5, 6, 7, 8]).2 =
      ([5, 6, 7, 8] : List ℕ) ∧
    Disjoint (Finset.range (splitIndex ([5, 6, 7, 8] : List ℕ).length))
      (Finset.Ico (splitIndex ([5, 6, 7, 8] : List ℕ).length)
        ([5, 6, 7, 8] : List ℕ).length) ∧
    Finset.range (splitIndex ([5, 6, 7, 8] : List ℕ).length) ∪
      Finset.Ico (splitIndex ([5, 6, 7, 8] : List ℕ).length)
        ([5, 6, 7, 8] : List ℕ).length =
      Finset.range ([5, 6, 7, 8] : List ℕ).length :=
  pipelineB_split_partition [[1], [2], [3], [4]] [5, 6, 7, 8] rfl

/-- C2 counterexample: for a sample set of size 5 the evaluation subset of
the pipeline A split has ceil(1.25) = 2 elements, while round(0.25 * 5) =
round(1.25) = 1, so the claimed evaluation size round(0.25 N) fails at
N = 5. -/
theorem pipelineA_split_round_cex :
    ((trainTestSplit (List.range 5)).2.length : ℤ) ≠
      round (((List.range 5).length : ℚ) * (1 / 4)) := by
  have h1 : (trainTestSplit (List.range 5)).2.length = 2 := by decide
  have h2 : round (((List.range 5).length : ℚ) * (1 / 4)) = 1 := by
    norm_num [List.length_range, round_eq]
  rw [h1, h2]
  decide

/-- C2 (amended): for every sample set the pipeline A split produces
training and evaluation subsets whose sizes sum to N, the evaluation
subset has size ceil(0.25 N) rather than round(0.25 N), and the split is
deterministic: it is a pure function of the seed-permuted input, so a
repeated run on the same input in the same order yields identical
subsets. -/
theorem pipelineA_split_sizes {α : Type} (l : List α) :
    (trainTestSplit l).1.length + (trainTestSplit l).2.length = l.length ∧
    ((trainTestSplit l).2.length : ℤ) = ⌈(l.length : ℚ) * (1 / 4)⌉ ∧
    (∀ l2 : List α, l2 = l → trainTestSplit l2 = trainTestSplit l) := by
  have hle : testSize l.length ≤ l.length := testSize_le _
  refine ⟨?_, ?_, ?_⟩
  · simp only [trainTestSplit]
    rw [List.length_drop, List.length_take, Nat.min_eq_left hle]
    omega
  · simp only [trainTestSplit]
    rw [List.length_take, Nat.min_eq_left hle]
    exact testSize_eq_ceil _
  · intro l2 h
    rw [h]

/-- Witness for pipelineA_split_sizes on a four-element sample list. -/
theorem pipelineA_split_sizes_w :
    (trainTestSplit ([0, 1, 2, 3] : List ℕ)).1.length +
      (trainTestSplit ([0, 1, 2, 3] : List ℕ)).2.length =
      ([0, 1, 2, 3] : List ℕ).length ∧
    ((trainTestSplit ([0, 1, 2, 3] : List ℕ)).2.length : ℤ) =
      ⌈(([0, 1, 2, 3] : List ℕ).length : ℚ) * (1 / 4)⌉ ∧
    (∀ l2 : List ℕ, l2 = [0, 1, 2, 3] →
      trainTestSplit l2 = trainTestSplit [0, 1, 2, 3]) :=
  pipelineA_split_sizes [0, 1, 2, 3]
